/-
Verification of the Yarn distro provisioning module
(crates/notion-core/src/distro/yarn.rs).

The module is embedded shallowly: external collaborators (the path-naming
scheme, the `archive` crate's Tarball capability, the filesystem, the
inventory collection and the progress bar) are modelled as an explicit
environment `Env`, an explicit filesystem state `FS`, and an effect trace
`List Effect`.  Each Rust function becomes a Lean function from the
environment and state to a result, the updated state and the trace of
side effects it performed.
-/
import Mathlib

namespace Notion

/-- Semantic versions are used in this module only through `to_string`,
equality and inventory membership, so they are represented by their
canonical string rendering. -/
abbrev Version := String

/-- A filesystem path, as a list of components. -/
abbrev Path := List String

/-- Opaque file contents (the bytes of a cached archive). -/
abbrev FileContent := String

/-- A filesystem: a list of nodes; `none` content marks a directory,
`some c` a regular file with contents `c`. -/
abbrev FS := List (Path × Option FileContent)

/-- `notion_fail` errors as classified by this module: `.unknown` is the
generic wrapper produced by `.unknown()`, `.download v` is
`DownloadError::for_version(v)` produced by `.with_context(...)`. -/
inductive NotionError where
  | unknown : NotionError
  | download (version : String) : NotionError
deriving DecidableEq, Repr

/-- The `Fetched<Version>` outcome type: `Already` is
`Fetched::Already` (already installed, no work performed), `Now` is
`Fetched::Now` (extraction and promotion completed). -/
inductive Fetched where
  | Already (v : Version) : Fetched
  | Now (v : Version) : Fetched
deriving DecidableEq, Repr

/-- Observable side effects performed by the module, in order. -/
inductive Effect where
  | openEff (p : Path) : Effect
  | ensureDir (p : Path) : Effect
  | fetchEff (url : String) (dest : Path) : Effect
  | unpackEff (dest : Path) : Effect
  | renameEff (src dst : Path) : Effect
  | barInit (total : Nat) : Effect
  | barInc (n : Nat) : Effect
  | barFinish : Effect
deriving DecidableEq, Repr

/-- Modelled from the spec: the opaque Archive capability of the
`archive` crate (not under src/).  An archive reports a compressed size
and an optional uncompressed size; unpacking it either succeeds, creating
`entries` (paths relative to the destination) while reporting the chunk
byte counts `chunks` to the progress callback, or fails after creating
only `midEntries` and reporting only `midChunks`. -/
structure Archive where
  uncompressedSize : Option Nat
  compressedSize : Nat
  chunks : List Nat
  entries : List (Path × Option FileContent)
  unpackErr : Option String
  midChunks : List Nat
  midEntries : List (Path × Option FileContent)
deriving DecidableEq, Repr

/-- Modelled from the spec: the progress-accounting contract of the
Archive capability — the byte-count increments reported over a whole
successful extraction sum to the archive's advertised uncompressed size
when that size is known. -/
def Archive.ProgressConform (a : Archive) : Prop :=
  ∀ n, a.uncompressedSize = some n → a.chunks.sum = n

/-- Modelled from the spec: the `inventory::YarnCollection` collaborator
(not under src/), a set-like record of the installed versions, queried
only for membership. -/
structure YarnCollection where
  versions : List Version
deriving DecidableEq, Repr

/-- Membership query used by the idempotency gate of `fetch`. -/
def YarnCollection.contains (c : YarnCollection) (v : Version) : Bool :=
  c.versions.contains v

/-- A provisioned Yarn distribution: owns an Archive plus its Version. -/
structure YarnDistro where
  archive : Archive
  version : Version
deriving DecidableEq, Repr

/-- The environment of external capabilities consumed by the module:
the pure path-naming functions of the `path` module, the fallible
directory resolvers, the build-time network configuration, and the
Tarball load/fetch capability (deterministic oracles: loading is a pure
function of the file contents, fetching a pure function of the url). -/
structure Env where
  yarnDistroFileName : String → String
  yarnArchiveRootDirName : String → String
  yarnInventoryDir : Except NotionError Path
  yarnImageRootDir : Except NotionError Path
  yarnImageDir : String → Except NotionError Path
  mockNetwork : Bool
  mockitoServerUrl : String
  openFails : Path → Bool
  tarballLoadC : FileContent → Except String Archive
  tarballFetchC : String → Except String (FileContent × Archive)
  ensureDirError : Path → Option NotionError

/-- `PathBuf::is_file`: the path names an existing regular file. -/
def FS.isFile (fs : FS) (p : Path) : Bool :=
  fs.any (fun e => e.1 == p && e.2.isSome)

/-- `File::open`: fails when the environment reports the path unopenable
(e.g. permissions) or when no regular file exists there; otherwise
returns the file's contents. -/
def FS.openFile (env : Env) (fs : FS) (p : Path) : Except String FileContent :=
  if env.openFails p then Except.error "cannot open"
  else
    match fs.find? (fun e => e.1 == p) with
    | some (_, some c) => Except.ok c
    | _ => Except.error "no such file"

/-- Writing a regular file: replaces any node at that exact path. -/
def FS.writeFile (fs : FS) (p : Path) (c : FileContent) : FS :=
  (p, some c) :: fs.filter (fun e => !(e.1 == p))

/-- A node exists at exactly this path. -/
def FS.existsP (fs : FS) (p : Path) : Bool :=
  fs.any (fun e => e.1 == p)

/-- Boolean path-component test: `s` is an initial run of `p`'s
components. -/
def pathPre : Path → Path → Bool
  | [], _ => true
  | _ :: _, [] => false
  | a :: s, b :: t => a == b && pathPre s t

/-- Moving a node under `src` to the corresponding place under `dst`. -/
def renameSeg (src dst p : Path) : Path :=
  if pathPre src p then dst ++ p.drop src.length else p

/-- `std::fs::rename(src, dst)` on a directory tree: fails when nothing
exists under `src`; otherwise atomically moves every node under `src` to
the corresponding path under `dst`. -/
def FS.renameOp (fs : FS) (src dst : Path) : Except String FS :=
  if fs.any (fun e => pathPre src e.1) then
    Except.ok (fs.map (fun e => (renameSeg src dst e.1, e.2)))
  else Except.error "no such file or directory"

/-- `fs::ensure_containing_dir_exists`: fallible; on success the
containing directory of `p` exists. -/
def ensure_containing_dir_exists (env : Env) (fs : FS) (p : Path) :
    Except NotionError FS :=
  match env.ensureDirError p with
  | some e => Except.error e
  | none =>
    let parent := p.dropLast
    if fs.any (fun e => e.1 == parent) then Except.ok fs
    else Except.ok ((parent, none) :: fs)

/-- `public_yarn_server_root()`: the mockito server url under the
`mock-network` feature, else the production Yarn distributor root. -/
def public_yarn_server_root (env : Env) : String :=
  if env.mockNetwork then env.mockitoServerUrl
  else "https://github.com/notion-cli/yarn-releases/raw/master/dist"

/-- `distro_is_valid`: the fetched file is a valid cached distribution —
an existing regular file that opens and parses as a Tarball.  Total:
every failure mode yields `false`, never an error. -/
def distro_is_valid (env : Env) (fs : FS) (file : Path) : Bool :=
  if FS.isFile fs file then
    match FS.openFile env fs file with
    | Except.ok f =>
      match env.tarballLoadC f with
      | Except.ok _ => true
      | Except.error _ => false
    | Except.error _ => false
  else false

/-- Modelled from the spec: `Archive::unpack` of the `archive` crate
(not under src/) — streams the container into `dest`, invoking the
progress callback with each chunk's byte count; on success all `entries`
are created under `dest`, on failure only `midEntries` are and an error
is returned. -/
def Archive.unpack (a : Archive) (dest : Path) (fs : FS) :
    Except String Unit × FS × List Effect :=
  match a.unpackErr with
  | none =>
    (Except.ok (), fs ++ a.entries.map (fun e => (dest ++ e.1, e.2)),
     Effect.unpackEff dest :: a.chunks.map Effect.barInc)
  | some msg =>
    (Except.error msg, fs ++ a.midEntries.map (fun e => (dest ++ e.1, e.2)),
     Effect.unpackEff dest :: a.midChunks.map Effect.barInc)

/-- `YarnDistro::local`: provision a distribution from the filesystem —
parse the file as a Tarball, wrapping a parse failure as `.unknown`. -/
def YarnDistro.local (env : Env) (version : Version) (file : FileContent) :
    Except NotionError YarnDistro :=
  match env.tarballLoadC file with
  | Except.error _ => Except.error NotionError.unknown
  | Except.ok archive => Except.ok { archive := archive, version := version }

/-- `YarnDistro::remote`: provision from a remote distributor.  Computes
the cache path; when the cached file is valid, short-circuits to
`local` on the opened cache file; otherwise ensures the containing
directory exists and fetches `url` into the cache path, wrapping a
transport failure as a `DownloadError` carrying the version string. -/
def YarnDistro.remote (env : Env) (version : Version) (url : String) (fs : FS) :
    Except NotionError YarnDistro × FS × List Effect :=
  let distro_file_name := env.yarnDistroFileName version
  match env.yarnInventoryDir with
  | Except.error e => (Except.error e, fs, [])
  | Except.ok inv_dir =>
    let distro_file := inv_dir ++ [distro_file_name]
    if distro_is_valid env fs distro_file then
      match FS.openFile env fs distro_file with
      | Except.error _ =>
        (Except.error NotionError.unknown, fs, [Effect.openEff distro_file])
      | Except.ok file =>
        (YarnDistro.local env version file, fs, [Effect.openEff distro_file])
    else
      match ensure_containing_dir_exists env fs distro_file with
      | Except.error e => (Except.error e, fs, [Effect.ensureDir distro_file])
      | Except.ok fs1 =>
        match env.tarballFetchC url with
        | Except.error _ =>
          (Except.error (NotionError.download version), fs1,
           [Effect.ensureDir distro_file, Effect.fetchEff url distro_file])
        | Except.ok (content, archive) =>
          (Except.ok { archive := archive, version := version },
           FS.writeFile fs1 distro_file content,
           [Effect.ensureDir distro_file, Effect.fetchEff url distro_file])

/-- `YarnDistro::public`: provision from the public Yarn distributor —
computes `<base-root>/<distro-file-name(version)>` and delegates to
`remote`. -/
def YarnDistro.public (env : Env) (version : Version) (fs : FS) :
    Except NotionError YarnDistro × FS × List Effect :=
  let distro_file_name := env.yarnDistroFileName version
  let url := public_yarn_server_root env ++ "/" ++ distro_file_name
  YarnDistro.remote env version url fs

/-- `YarnDistro::fetch`: the install step.  Idempotency gate against the
inventory; then progress-bar creation, streamed extraction into the
image root, and atomic promotion of the version-named archive root to
the per-version image directory. -/
def YarnDistro.fetch (env : Env) (self : YarnDistro) (collection : YarnCollection)
    (fs : FS) : Except NotionError Fetched × FS × List Effect :=
  if collection.contains self.version then
    (Except.ok (Fetched.Already self.version), fs, [])
  else
    match env.yarnImageRootDir with
    | Except.error e => (Except.error e, fs, [])
    | Except.ok dest =>
      let total := self.archive.uncompressedSize.getD self.archive.compressedSize
      match Archive.unpack self.archive dest fs with
      | (Except.error _, fs1, tr1) =>
        (Except.error NotionError.unknown, fs1, Effect.barInit total :: tr1)
      | (Except.ok _, fs1, tr1) =>
        let version_string := self.version
        match env.yarnImageDir version_string with
        | Except.error e => (Except.error e, fs1, Effect.barInit total :: tr1)
        | Except.ok image_dir =>
          let src := dest ++ [env.yarnArchiveRootDirName version_string]
          match FS.renameOp fs1 src image_dir with
          | Except.error _ =>
            (Except.error NotionError.unknown, fs1,
             Effect.barInit total :: tr1 ++ [Effect.renameEff src image_dir])
          | Except.ok fs2 =>
            (Except.ok (Fetched.Now self.version), fs2,
             Effect.barInit total :: tr1 ++
               [Effect.renameEff src image_dir, Effect.barFinish])

/-- Modelled from the spec: `Tarball::fetch` writes to the cache path
exactly the bytes of the archive it parsed, so a file written by a
successful fetch parses again with `Tarball::load`. -/
def Env.FetchWritesParsable (env : Env) : Prop :=
  ∀ url c a, env.tarballFetchC url = Except.ok (c, a) →
    ∃ a2, env.tarballLoadC c = Except.ok a2

/-- The total number of bytes reported to the progress sink in a trace. -/
def incSum (t : List Effect) : Nat :=
  (t.map (fun e => match e with | Effect.barInc n => n | _ => 0)).sum

/-- A concrete archive used to instantiate the theorems. -/
def archW : Archive :=
  { uncompressedSize := some 7
    compressedSize := 5
    chunks := [3, 4]
    entries := [(["yarn-v1.9.4"], none), (["yarn-v1.9.4", "bin"], some "x")]
    unpackErr := none
    midChunks := []
    midEntries := [] }

/-- A concrete archive whose extraction fails mid-stream. -/
def archFailW : Archive :=
  { archW with
    unpackErr := some "eof"
    midChunks := [3]
    midEntries := [(["yarn-v1.9.4"], none)] }

/-- A concrete environment used to instantiate the theorems. -/
def envW : Env :=
  { yarnDistroFileName := fun s => "yarn-v" ++ s ++ ".tar.gz"
    yarnArchiveRootDirName := fun s => "yarn-v" ++ s
    yarnInventoryDir := Except.ok ["inventory", "yarn"]
    yarnImageRootDir := Except.ok ["image", "yarn"]
    yarnImageDir := fun s => Except.ok ["image", "yarn", s]
    mockNetwork := false
    mockitoServerUrl := "http://localhost:1234"
    openFails := fun _ => false
    tarballLoadC := fun c =>
      if c == "good" then Except.ok archW else Except.error "corrupt"
    tarballFetchC := fun _ => Except.ok ("good", archW)
    ensureDirError := fun _ => none }

/-- `envW` with a failing network transport. -/
def envNetFailW : Env := { envW with tarballFetchC := fun _ => Except.error "net" }

/-- A concrete provisioned distribution. -/
def dW : YarnDistro := { archive := archW, version := "1.9.4" }

/-- A concrete distribution whose extraction fails. -/
def dFailW : YarnDistro := { archive := archFailW, version := "1.9.4" }

/-- An inventory without the version. -/
def collEmptyW : YarnCollection := { versions := [] }

/-- An inventory already containing the version. -/
def collHaveW : YarnCollection := { versions := ["1.9.4"] }

/-- The cache path of version 1.9.4 under `envW`. -/
def cacheFileW : Path := ["inventory", "yarn", "yarn-v1.9.4.tar.gz"]

/-- A filesystem holding a valid cached archive for 1.9.4. -/
def fsCacheW : FS := [(cacheFileW, some "good")]

theorem distro_is_valid_iff (env : Env) (fs : FS) (p : Path) :
    distro_is_valid env fs p = true ↔
      FS.isFile fs p = true ∧ ∃ c, FS.openFile env fs p = Except.ok c ∧
        ∃ a, env.tarballLoadC c = Except.ok a := by
  unfold distro_is_valid
  by_cases hf : FS.isFile fs p = true
  · rw [if_pos hf]
    cases ho : FS.openFile env fs p with
    | error e => simp [hf, ho]
    | ok c =>
      cases hl : env.tarballLoadC c with
      | error e => simp [hf, ho, hl]
      | ok a =>
        simp only [hf, true_and, ho, hl]
        constructor
        · intro _
          exact ⟨c, rfl, a, hl⟩
        · intro _
          trivial
  · rw [if_neg hf]
    simp only [Bool.not_eq_true] at hf
    simp [hf]

theorem local_ok_version (env : Env) (v : Version) (f : FileContent)
    (d2 : YarnDistro) (h : YarnDistro.local env v f = Except.ok d2) :
    d2.version = v := by
  unfold YarnDistro.local at h
  cases hl : env.tarballLoadC f with
  | error e => rw [hl] at h; simp at h
  | ok a =>
    rw [hl] at h
    simp only [Except.ok.injEq] at h
    rw [← h]

theorem remote_ok_version (env : Env) (v : Version) (url : String) (fs : FS)
    (d2 : YarnDistro) (h : (YarnDistro.remote env v url fs).1 = Except.ok d2) :
    d2.version = v := by
  unfold YarnDistro.remote at h
  cases hinv : env.yarnInventoryDir with
  | error e => rw [hinv] at h; simp at h
  | ok inv_dir =>
    rw [hinv] at h
    simp only at h
    cases hv : distro_is_valid env fs (inv_dir ++ [env.yarnDistroFileName v]) with
    | true =>
      rw [hv] at h
      simp only [if_true] at h
      cases ho : FS.openFile env fs (inv_dir ++ [env.yarnDistroFileName v]) with
      | error e => rw [ho] at h; simp at h
      | ok file =>
        rw [ho] at h
        exact local_ok_version env v file d2 h
    | false =>
      rw [hv] at h
      simp only [Bool.false_eq_true, if_false] at h
      cases he : ensure_containing_dir_exists env fs
          (inv_dir ++ [env.yarnDistroFileName v]) with
      | error e => rw [he] at h; simp at h
      | ok fs1 =>
        rw [he] at h
        cases hfe : env.tarballFetchC url with
        | error e => rw [hfe] at h; simp at h
        | ok ca =>
          rw [hfe] at h
          cases ca with
          | mk content archive =>
            simp only [Except.ok.injEq] at h
            rw [← h]

theorem pathPre_iff (s p : Path) : pathPre s p = true ↔ ∃ r, p = s ++ r := by
  induction s generalizing p with
  | nil => simp [pathPre]
  | cons a s ih =>
    cases p with
    | nil => simp [pathPre]
    | cons b t =>
      simp only [pathPre, Bool.and_eq_true, beq_iff_eq, ih]
      constructor
      · rintro ⟨hab, r, rfl⟩
        exact ⟨r, by rw [List.cons_append, hab]⟩
      · rintro ⟨r, hr⟩
        rw [List.cons_append] at hr
        injection hr with h1 h2
        exact ⟨h1.symm, r, h2⟩

theorem pathPre_append (s r : Path) : pathPre s (s ++ r) = true :=
  (pathPre_iff s _).mpr ⟨r, rfl⟩

theorem pathPre_refl (s : Path) : pathPre s s = true := by
  have h := pathPre_append s []
  simpa using h

theorem pathPre_trans_left {s d : Path} (r : Path) (h : pathPre s (d ++ r) = true)
    (hlen : s.length ≤ d.length) : pathPre s d = true := by
  obtain ⟨q, hq⟩ := (pathPre_iff s _).mp h
  have h1 : (d ++ r).take s.length = d.take s.length :=
    List.take_append_of_le_length hlen
  have h2 : (s ++ q).take s.length = s := List.take_left s q
  have hs : d.take s.length = s := by rw [← h1, hq, h2]
  refine (pathPre_iff s d).mpr ⟨d.drop s.length, ?_⟩
  conv_lhs => rw [← List.take_append_drop s.length d]
  rw [hs]

theorem pathPre_trans_right {s d : Path} (r : Path) (h : pathPre s (d ++ r) = true)
    (hlen : d.length ≤ s.length) : pathPre d s = true := by
  obtain ⟨q, hq⟩ := (pathPre_iff s _).mp h
  have h1 : (d ++ r).take d.length = d := List.take_left d r
  have h2 : (s ++ q).take d.length = s.take d.length :=
    List.take_append_of_le_length hlen
  have hs : s.take d.length = d := by rw [← h2, ← hq, h1]
  refine (pathPre_iff d s).mpr ⟨s.drop d.length, ?_⟩
  conv_lhs => rw [← List.take_append_drop d.length s]
  rw [hs]

theorem renameSeg_clears {src dst : Path} (hsd : pathPre src dst = false)
    (hds : pathPre dst src = false) (p : Path) :
    pathPre src (renameSeg src dst p) = false := by
  unfold renameSeg
  by_cases hp : pathPre src p = true
  · rw [if_pos hp]
    cases hcon : pathPre src (dst ++ p.drop src.length) with
    | false => rfl
    | true =>
      exfalso
      rcases Nat.le_total src.length dst.length with hle | hle
      · exact absurd (pathPre_trans_left _ hcon hle) (by simp [hsd])
      · exact absurd (pathPre_trans_right _ hcon hle) (by simp [hds])
  · rw [if_neg hp]
    simpa using hp

theorem renameSeg_self (src dst : Path) : renameSeg src dst src = dst := by
  unfold renameSeg
  rw [if_pos (pathPre_refl src)]
  simp

theorem incSum_nil : incSum [] = 0 := rfl

theorem incSum_cons (e : Effect) (t : List Effect) :
    incSum (e :: t) =
      (match e with | Effect.barInc n => n | _ => 0) + incSum t := by
  simp [incSum]

theorem incSum_append (a b : List Effect) :
    incSum (a ++ b) = incSum a + incSum b := by
  simp [incSum]

theorem incSum_map_barInc (l : List Nat) :
    incSum (l.map Effect.barInc) = l.sum := by
  induction l with
  | nil => rfl
  | cons n t ih => simp [incSum_cons, ih]

theorem openFile_writeFile (env : Env) (fs : FS) (p : Path) (c : FileContent)
    (h : env.openFails p = false) :
    FS.openFile env (FS.writeFile fs p c) p = Except.ok c := by
  unfold FS.openFile FS.writeFile
  rw [h]
  simp only [Bool.false_eq_true, if_false]
  rw [List.find?_cons_of_pos _ (by simp)]

theorem fetch_ok_cases (env : Env) (d : YarnDistro) (c : YarnCollection) (fs : FS)
    (out : Fetched) (h : (YarnDistro.fetch env d c fs).1 = Except.ok out) :
    out = Fetched.Already d.version ∨ out = Fetched.Now d.version := by
  unfold YarnDistro.fetch at h
  dsimp only at h
  split at h
  · simp only [Except.ok.injEq] at h
    exact Or.inl h.symm
  · split at h
    · simp at h
    · split at h
      · simp at h
      · split at h
        · simp at h
        · split at h
          · simp at h
          · simp only [Except.ok.injEq] at h
            exact Or.inr h.symm

/-- C4: the cache validity check is a total boolean function (it returns
`Bool`, never an error): it returns true iff the path denotes an existing
regular file that can be opened and whose contents parse as a well-formed
archive container; in particular it returns false for a non-existent
path, an unopenable file, and a malformed archive. -/
theorem cache_validity_total (env : Env) (fs : FS) (p : Path) :
    (distro_is_valid env fs p = true ↔
      FS.isFile fs p = true ∧ ∃ c, FS.openFile env fs p = Except.ok c ∧
        ∃ a, env.tarballLoadC c = Except.ok a) ∧
    (FS.isFile fs p = false → distro_is_valid env fs p = false) ∧
    (env.openFails p = true → distro_is_valid env fs p = false) ∧
    (∀ c e, FS.openFile env fs p = Except.ok c →
      env.tarballLoadC c = Except.error e → distro_is_valid env fs p = false) := by
  refine ⟨distro_is_valid_iff env fs p, ?_, ?_, ?_⟩
  · intro h
    cases hd : distro_is_valid env fs p with
    | false => rfl
    | true =>
      have hfile := ((distro_is_valid_iff env fs p).mp hd).1
      rw [h] at hfile
      exact absurd hfile (by simp)
  · intro h
    cases hd : distro_is_valid env fs p with
    | false => rfl
    | true =>
      obtain ⟨-, c, hc, -⟩ := (distro_is_valid_iff env fs p).mp hd
      unfold FS.openFile at hc
      rw [h] at hc
      simp at hc
  · intro c e hc hl
    cases hd : distro_is_valid env fs p with
    | false => rfl
    | true =>
      obtain ⟨-, c2, hc2, a, ha⟩ := (distro_is_valid_iff env fs p).mp hd
      rw [hc] at hc2
      simp only [Except.ok.injEq] at hc2
      rw [← hc2, hl] at ha
      simp at ha

theorem cache_validity_total_witness :
    distro_is_valid envW fsCacheW cacheFileW = true ∧
    distro_is_valid envW [] cacheFileW = false := by
  constructor
  · exact (cache_validity_total envW fsCacheW cacheFileW).1.mpr
      ⟨by decide, "good", rfl, archW, rfl⟩
  · exact (cache_validity_total envW [] cacheFileW).2.1 (by decide)

/-- C9: `public` computes the url as the configured base root joined
with "/" and the distro file name of the version, then behaves exactly
as `remote` on that url; the base root is the production distributor
root or the mockito test root depending on the `mock-network`
configuration. -/
theorem public_source_url (env : Env) (v : Version) (fs : FS) :
    YarnDistro.public env v fs =
      YarnDistro.remote env v
        (public_yarn_server_root env ++ "/" ++ env.yarnDistroFileName v) fs ∧
    (env.mockNetwork = true → public_yarn_server_root env = env.mockitoServerUrl) ∧
    (env.mockNetwork = false →
      public_yarn_server_root env =
        "https://github.com/notion-cli/yarn-releases/raw/master/dist") := by
  refine ⟨rfl, ?_, ?_⟩ <;> intro h <;> simp [public_yarn_server_root, h]

theorem public_source_url_witness :
    public_yarn_server_root envW =
      "https://github.com/notion-cli/yarn-releases/raw/master/dist" :=
  (public_source_url envW "1.9.4" []).2.2 rfl

/-- C2: for a version already present in the inventory, `fetch` returns
`Already` with the filesystem unchanged and an empty effect trace: no
unpack, no directory creation, no rename, no write of any kind. -/
theorem fetch_already_no_writes (env : Env) (d : YarnDistro) (c : YarnCollection)
    (fs : FS) (h : c.contains d.version = true) :
    YarnDistro.fetch env d c fs = (Except.ok (Fetched.Already d.version), fs, []) := by
  simp [YarnDistro.fetch, h]

theorem fetch_already_no_writes_witness :
    YarnDistro.fetch envW dW collHaveW fsCacheW =
      (Except.ok (Fetched.Already "1.9.4"), fsCacheW, []) :=
  fetch_already_no_writes envW dW collHaveW fsCacheW (by decide)

/-- C6: a transport failure during the remote fetch in `remote` is
wrapped as a `DownloadError` carrying the version string, whereas a
parse failure in `local` is wrapped as the generic `.unknown` failure
and `local` never produces a `DownloadError`. -/
theorem error_classification (env : Env) (v : Version) (url : String) (fs : FS) :
    (∀ inv_dir fs1 e, env.yarnInventoryDir = Except.ok inv_dir →
      distro_is_valid env fs (inv_dir ++ [env.yarnDistroFileName v]) = false →
      ensure_containing_dir_exists env fs (inv_dir ++ [env.yarnDistroFileName v]) =
        Except.ok fs1 →
      env.tarballFetchC url = Except.error e →
      (YarnDistro.remote env v url fs).1 = Except.error (NotionError.download v)) ∧
    (∀ f e, env.tarballLoadC f = Except.error e →
      YarnDistro.local env v f = Except.error NotionError.unknown) ∧
    (∀ f s, YarnDistro.local env v f ≠ Except.error (NotionError.download s)) := by
  refine ⟨?_, ?_, ?_⟩
  · intro inv_dir fs1 e hinv hval hens hfe
    simp [YarnDistro.remote, hinv, hval, hens, hfe]
  · intro f e h
    simp [YarnDistro.local, h]
  · intro f s h
    unfold YarnDistro.local at h
    cases hl : env.tarballLoadC f <;> simp [hl] at h

theorem error_classification_witness :
    (YarnDistro.remote envNetFailW "1.9.4" "http://u" []).1 =
      Except.error (NotionError.download "1.9.4") ∧
    YarnDistro.local envW "1.9.4" "bad" = Except.error NotionError.unknown := by
  constructor
  · exact (error_classification envNetFailW "1.9.4" "http://u" []).1
      ["inventory", "yarn"] [(["inventory", "yarn"], none)] "net"
      rfl (by decide) rfl rfl
  · exact (error_classification envW "1.9.4" "x" []).2.1 "bad" "corrupt" rfl

/-- C1: `fetch` returns `Already(version)` iff the inventory contains
the distribution's version; otherwise, when extraction and promotion
succeed, it returns `Now(version)`; these are the only two success
outcomes and they are mutually exclusive. -/
theorem fetch_outcomes (env : Env) (d : YarnDistro) (c : YarnCollection) (fs : FS) :
    ((YarnDistro.fetch env d c fs).1 = Except.ok (Fetched.Already d.version) ↔
      c.contains d.version = true) ∧
    ((YarnDistro.fetch env d c fs).1 = Except.ok (Fetched.Now d.version) →
      c.contains d.version = false) ∧
    (∀ out, (YarnDistro.fetch env d c fs).1 = Except.ok out →
      out = Fetched.Already d.version ∨ out = Fetched.Now d.version) ∧
    (∀ v1 v2, Fetched.Already v1 ≠ Fetched.Now v2) ∧
    (∀ dest image_dir fs2, c.contains d.version = false →
      env.yarnImageRootDir = Except.ok dest →
      d.archive.unpackErr = none →
      env.yarnImageDir d.version = Except.ok image_dir →
      FS.renameOp (fs ++ d.archive.entries.map (fun e => (dest ++ e.1, e.2)))
          (dest ++ [env.yarnArchiveRootDirName d.version]) image_dir =
        Except.ok fs2 →
      (YarnDistro.fetch env d c fs).1 = Except.ok (Fetched.Now d.version)) := by
  refine ⟨⟨?_, ?_⟩, ?_, ?_, ?_, ?_⟩
  · intro h
    cases hc : c.contains d.version with
    | true => rfl
    | false =>
      exfalso
      unfold YarnDistro.fetch at h
      rw [hc] at h
      simp only [Bool.false_eq_true, if_false] at h
      split at h
      · simp at h
      · split at h
        · simp at h
        · split at h
          · simp at h
          · split at h
            · simp at h
            · simp at h
  · intro hc
    simp [YarnDistro.fetch, hc]
  · intro h
    cases hc : c.contains d.version with
    | true =>
      exfalso
      unfold YarnDistro.fetch at h
      rw [hc] at h
      simp at h
    | false => rfl
  · intro out h
    exact fetch_ok_cases env d c fs out h
  · intro v1 v2 h
    exact Fetched.noConfusion h
  · intro dest image_dir fs2 hc hroot hu himg hren
    simp [YarnDistro.fetch, Archive.unpack, hc, hroot, hu, himg, hren]

theorem fetch_outcomes_witness :
    (YarnDistro.fetch envW dW collEmptyW []).1 = Except.ok (Fetched.Now "1.9.4") :=
  (fetch_outcomes envW dW collEmptyW []).2.2.2.2 ["image", "yarn"]
    ["image", "yarn", "1.9.4"]
    [(["image", "yarn", "1.9.4"], none), (["image", "yarn", "1.9.4", "bin"], some "x")]
    (by decide) rfl rfl rfl rfl

/-- C10: every successful constructor — public, remote (including the
cache-hit short-circuit) and local — returns a distribution whose
version is exactly the version argument supplied by the caller (the
environment, hence the archive contents, is arbitrary), and the fetch
outcome carries that same version. -/
theorem version_preservation (env : Env) (v : Version) (url : String)
    (f : FileContent) (fs : FS) (d : YarnDistro) (c : YarnCollection) :
    (∀ d2, (YarnDistro.public env v fs).1 = Except.ok d2 → d2.version = v) ∧
    (∀ d2, (YarnDistro.remote env v url fs).1 = Except.ok d2 → d2.version = v) ∧
    (∀ d2, YarnDistro.local env v f = Except.ok d2 → d2.version = v) ∧
    (∀ out, (YarnDistro.fetch env d c fs).1 = Except.ok out →
      out = Fetched.Already d.version ∨ out = Fetched.Now d.version) := by
  refine ⟨?_, ?_, ?_, ?_⟩
  · intro d2 h
    exact remote_ok_version env v
      (public_yarn_server_root env ++ "/" ++ env.yarnDistroFileName v) fs d2 h
  · intro d2 h
    exact remote_ok_version env v url fs d2 h
  · intro d2 h
    exact local_ok_version env v f d2 h
  · intro out h
    exact fetch_ok_cases env d c fs out h

theorem version_preservation_witness : dW.version = "1.9.4" :=
  (version_preservation envW "1.9.4" "http://u" "good" [] dW collEmptyW).2.1 dW rfl

/-- C3: when the cache validator reports the version's cache path valid,
`remote` short-circuits to the local-file path on that existing cache
file — the filesystem is unchanged, no fetch effect is performed, and
the result does not depend on the url at all. -/
theorem cache_hit_no_network (env : Env) (v : Version) (url url2 : String)
    (fs : FS) (inv_dir : Path)
    (hinv : env.yarnInventoryDir = Except.ok inv_dir)
    (hvalid : distro_is_valid env fs (inv_dir ++ [env.yarnDistroFileName v]) = true) :
    (∀ e ∈ (YarnDistro.remote env v url fs).2.2, ∀ u p, e ≠ Effect.fetchEff u p) ∧
    (YarnDistro.remote env v url fs).2.1 = fs ∧
    (∃ c, FS.openFile env fs (inv_dir ++ [env.yarnDistroFileName v]) = Except.ok c ∧
      (YarnDistro.remote env v url fs).1 = YarnDistro.local env v c) ∧
    YarnDistro.remote env v url fs = YarnDistro.remote env v url2 fs := by
  obtain ⟨-, c0, hc0, -⟩ := (distro_is_valid_iff env fs _).mp hvalid
  have hrem : ∀ u : String, YarnDistro.remote env v u fs =
      (YarnDistro.local env v c0, fs,
        [Effect.openEff (inv_dir ++ [env.yarnDistroFileName v])]) := by
    intro u
    simp [YarnDistro.remote, hinv, hvalid, hc0]
  refine ⟨?_, ?_, ⟨c0, hc0, ?_⟩, ?_⟩
  · rw [hrem url]
    intro e he u p
    simp only [List.mem_singleton] at he
    rw [he]
    simp
  · rw [hrem url]
  · rw [hrem url]
  · rw [hrem url, hrem url2]

theorem cache_hit_no_network_witness :
    YarnDistro.remote envW "1.9.4" "http://a" fsCacheW =
      YarnDistro.remote envW "1.9.4" "http://b" fsCacheW :=
  (cache_hit_no_network envW "1.9.4" "http://a" "http://b" fsCacheW
    ["inventory", "yarn"] rfl (by decide)).2.2.2

/-- C7: during an extraction the progress sink is initialized with the
archive's uncompressed size when known, else its compressed size, as the
total; and when the archive conforms to its progress contract, the sum
of the byte-count increments reported over a whole successful extraction
equals the advertised uncompressed size when known. -/
theorem progress_accounting (env : Env) (d : YarnDistro) (c : YarnCollection)
    (fs : FS) (dest : Path)
    (hc : c.contains d.version = false)
    (hdest : env.yarnImageRootDir = Except.ok dest) :
    ((YarnDistro.fetch env d c fs).2.2.head? =
      some (Effect.barInit
        (d.archive.uncompressedSize.getD d.archive.compressedSize))) ∧
    (d.archive.unpackErr = none → Archive.ProgressConform d.archive →
      ∀ n, d.archive.uncompressedSize = some n →
        incSum (YarnDistro.fetch env d c fs).2.2 = n) := by
  constructor
  · simp only [YarnDistro.fetch, hc, Bool.false_eq_true, if_false, hdest,
      Archive.unpack]
    repeat' split
    all_goals simp
  · intro hu hconf n hn
    simp only [YarnDistro.fetch, hc, Bool.false_eq_true, if_false, hdest,
      Archive.unpack, hu]
    cases himg : env.yarnImageDir d.version with
    | error e =>
      simp [himg, incSum_cons, incSum_append, incSum_map_barInc, incSum_nil]
      exact hconf n hn
    | ok image_dir =>
      cases hren : FS.renameOp (fs ++ d.archive.entries.map (fun e => (dest ++ e.1, e.2)))
          (dest ++ [env.yarnArchiveRootDirName d.version]) image_dir with
      | error e2 =>
        simp [himg, hren, incSum_cons, incSum_append, incSum_map_barInc, incSum_nil]
        exact hconf n hn
      | ok fs2 =>
        simp [himg, hren, incSum_cons, incSum_append, incSum_map_barInc, incSum_nil]
        exact hconf n hn

theorem progress_accounting_witness :
    (YarnDistro.fetch envW dW collEmptyW []).2.2.head? =
      some (Effect.barInit 7) ∧
    incSum (YarnDistro.fetch envW dW collEmptyW []).2.2 = 7 := by
  have h := progress_accounting envW dW collEmptyW [] ["image", "yarn"]
    (by decide) rfl
  refine ⟨h.1, h.2 rfl (fun n hn => ?_) 7 rfl⟩
  have h2 : (some 7 : Option Nat) = some n := hn
  have h7 : n = 7 := by simpa using h2.symm
  rw [h7]
  decide

/-- C8: round-trip — after any successful `remote(v, url)` (whether it
hit the cache or fetched, under the contract that a fetched file parses
again), opening the version's cache file and provisioning it with
`local(v, ·)` succeeds and yields a distribution whose version is `v`. -/
theorem round_trip (env : Env) (v : Version) (url : String) (fs : FS)
    (inv_dir : Path) (d : YarnDistro)
    (hcontract : Env.FetchWritesParsable env)
    (hinv : env.yarnInventoryDir = Except.ok inv_dir)
    (hopen : env.openFails (inv_dir ++ [env.yarnDistroFileName v]) = false)
    (hok : (YarnDistro.remote env v url fs).1 = Except.ok d) :
    ∃ content,
      FS.openFile env (YarnDistro.remote env v url fs).2.1
          (inv_dir ++ [env.yarnDistroFileName v]) = Except.ok content ∧
      ∃ d2, YarnDistro.local env v content = Except.ok d2 ∧ d2.version = v := by
  cases hv : distro_is_valid env fs (inv_dir ++ [env.yarnDistroFileName v]) with
  | true =>
    obtain ⟨-, c0, hc0, a0, ha0⟩ := (distro_is_valid_iff env fs _).mp hv
    have heq : YarnDistro.remote env v url fs =
        (YarnDistro.local env v c0, fs,
          [Effect.openEff (inv_dir ++ [env.yarnDistroFileName v])]) := by
      simp [YarnDistro.remote, hinv, hv, hc0]
    rw [heq]
    exact ⟨c0, hc0, { archive := a0, version := v }, by simp [YarnDistro.local, ha0], rfl⟩
  | false =>
    cases hens : ensure_containing_dir_exists env fs
        (inv_dir ++ [env.yarnDistroFileName v]) with
    | error e =>
      exfalso
      simp [YarnDistro.remote, hinv, hv, hens] at hok
    | ok fs1 =>
      cases hfe : env.tarballFetchC url with
      | error e =>
        exfalso
        simp [YarnDistro.remote, hinv, hv, hens, hfe] at hok
      | ok ca =>
        obtain ⟨content0, archive0⟩ := ca
        have heq : YarnDistro.remote env v url fs =
            (Except.ok { archive := archive0, version := v },
             FS.writeFile fs1 (inv_dir ++ [env.yarnDistroFileName v]) content0,
             [Effect.ensureDir (inv_dir ++ [env.yarnDistroFileName v]),
              Effect.fetchEff url (inv_dir ++ [env.yarnDistroFileName v])]) := by
          simp [YarnDistro.remote, hinv, hv, hens, hfe]
        rw [heq]
        obtain ⟨a2, ha2⟩ := hcontract url content0 archive0 hfe
        exact ⟨content0, openFile_writeFile env fs1 _ content0 hopen,
          { archive := a2, version := v }, by simp [YarnDistro.local, ha2], rfl⟩

theorem round_trip_witness :
    ∃ content,
      FS.openFile envW (YarnDistro.remote envW "1.9.4" "http://u" []).2.1
          (["inventory", "yarn"] ++ [envW.yarnDistroFileName "1.9.4"]) =
        Except.ok content ∧
      ∃ d2, YarnDistro.local envW "1.9.4" content = Except.ok d2 ∧
        d2.version = "1.9.4" := by
  have hcontractW : Env.FetchWritesParsable envW := by
    intro u c a h
    have h2 : (Except.ok ("good", archW) :
        Except String (FileContent × Archive)) = Except.ok (c, a) := h
    simp only [Except.ok.injEq, Prod.mk.injEq] at h2
    exact ⟨archW, by rw [← h2.1]; rfl⟩
  exact round_trip envW "1.9.4" "http://u" [] ["inventory", "yarn"] dW
    hcontractW rfl rfl rfl

/-- C5: atomic promotion — on an install of a version not in the
inventory, if extraction fails no rename is performed and the final
per-version install path does not exist afterwards; if extraction
succeeds, the version-named archive root is renamed from the staging
root to the final per-version directory, so the final path exists and
nothing remains under the staging subtree that was renamed away. -/
theorem atomic_promotion (env : Env) (d : YarnDistro) (c : YarnCollection) (fs : FS)
    (dest image_dir : Path)
    (hc : c.contains d.version = false)
    (hdest : env.yarnImageRootDir = Except.ok dest)
    (himg : env.yarnImageDir d.version = Except.ok image_dir) :
    (∀ msg, d.archive.unpackErr = some msg →
      (∀ e ∈ (YarnDistro.fetch env d c fs).2.2, ∀ s t, e ≠ Effect.renameEff s t) ∧
      (YarnDistro.fetch env d c fs).1 = Except.error NotionError.unknown ∧
      (FS.existsP fs image_dir = false →
       (∀ p ∈ d.archive.midEntries, dest ++ p.1 ≠ image_dir) →
       FS.existsP (YarnDistro.fetch env d c fs).2.1 image_dir = false)) ∧
    (d.archive.unpackErr = none →
      ([env.yarnArchiveRootDirName d.version], (none : Option FileContent)) ∈
        d.archive.entries →
      pathPre (dest ++ [env.yarnArchiveRootDirName d.version]) image_dir = false →
      pathPre image_dir (dest ++ [env.yarnArchiveRootDirName d.version]) = false →
      (YarnDistro.fetch env d c fs).1 = Except.ok (Fetched.Now d.version) ∧
      FS.existsP (YarnDistro.fetch env d c fs).2.1 image_dir = true ∧
      ∀ e ∈ (YarnDistro.fetch env d c fs).2.1,
        pathPre (dest ++ [env.yarnArchiveRootDirName d.version]) e.1 = false) := by
  constructor
  · intro msg hu
    have heq : YarnDistro.fetch env d c fs =
        (Except.error NotionError.unknown,
         fs ++ d.archive.midEntries.map (fun e => (dest ++ e.1, e.2)),
         Effect.barInit (d.archive.uncompressedSize.getD d.archive.compressedSize) ::
           Effect.unpackEff dest :: d.archive.midChunks.map Effect.barInc) := by
      simp [YarnDistro.fetch, Archive.unpack, hc, hdest, hu]
    refine ⟨?_, ?_, ?_⟩
    · rw [heq]
      intro e he s t
      simp only [List.mem_cons] at he
      rcases he with rfl | rfl | he
      · simp
      · simp
      · obtain ⟨n, -, rfl⟩ := List.mem_map.mp he
        simp
    · rw [heq]
    · intro hex hmem
      rw [heq]
      simp only [FS.existsP] at hex ⊢
      rw [Bool.eq_false_iff] at hex ⊢
      intro hany
      obtain ⟨x, hx, hbeq⟩ := List.any_eq_true.mp hany
      rcases List.mem_append.mp hx with hxf | hxm
      · exact hex (List.any_eq_true.mpr ⟨x, hxf, hbeq⟩)
      · obtain ⟨p0, hp0, rfl⟩ := List.mem_map.mp hxm
        exact hmem p0 hp0 (by simpa using hbeq)
  · intro hu hroot hnsd hnds
    have hmem1 : ((dest ++ [env.yarnArchiveRootDirName d.version]),
        (none : Option FileContent)) ∈
        fs ++ d.archive.entries.map (fun e => (dest ++ e.1, e.2)) := by
      refine List.mem_append.mpr (Or.inr ?_)
      exact List.mem_map.mpr ⟨([env.yarnArchiveRootDirName d.version], none), hroot, rfl⟩
    have hguard : (fs ++ d.archive.entries.map (fun e => (dest ++ e.1, e.2))).any
        (fun e => pathPre (dest ++ [env.yarnArchiveRootDirName d.version]) e.1) =
        true :=
      List.any_eq_true.mpr ⟨_, hmem1, pathPre_refl _⟩
    have hren : FS.renameOp (fs ++ d.archive.entries.map (fun e => (dest ++ e.1, e.2)))
        (dest ++ [env.yarnArchiveRootDirName d.version]) image_dir =
        Except.ok ((fs ++ d.archive.entries.map (fun e => (dest ++ e.1, e.2))).map
          (fun e => (renameSeg (dest ++ [env.yarnArchiveRootDirName d.version])
            image_dir e.1, e.2))) := by
      unfold FS.renameOp
      rw [hguard]
      simp
    have heq : YarnDistro.fetch env d c fs =
        (Except.ok (Fetched.Now d.version),
         (fs ++ d.archive.entries.map (fun e => (dest ++ e.1, e.2))).map
           (fun e => (renameSeg (dest ++ [env.yarnArchiveRootDirName d.version])
             image_dir e.1, e.2)),
         Effect.barInit (d.archive.uncompressedSize.getD d.archive.compressedSize) ::
           (Effect.unpackEff dest :: d.archive.chunks.map Effect.barInc) ++
           [Effect.renameEff (dest ++ [env.yarnArchiveRootDirName d.version])
              image_dir,
            Effect.barFinish]) := by
      simp [YarnDistro.fetch, Archive.unpack, hc, hdest, hu, himg, hren]
    refine ⟨by rw [heq], ?_, ?_⟩
    · rw [heq]
      simp only [FS.existsP]
      refine List.any_eq_true.mpr ⟨(image_dir, none), ?_, by simp⟩
      refine List.mem_map.mpr
        ⟨((dest ++ [env.yarnArchiveRootDirName d.version]), none), hmem1, ?_⟩
      simp [renameSeg_self]
    · rw [heq]
      intro e he
      obtain ⟨q, hq, rfl⟩ := List.mem_map.mp he
      exact renameSeg_clears hnsd hnds q.1

theorem atomic_promotion_witness :
    (YarnDistro.fetch envW dFailW collEmptyW []).1 =
      Except.error NotionError.unknown ∧
    FS.existsP (YarnDistro.fetch envW dFailW collEmptyW []).2.1
      ["image", "yarn", "1.9.4"] = false ∧
    (YarnDistro.fetch envW dW collEmptyW []).1 = Except.ok (Fetched.Now "1.9.4") ∧
    FS.existsP (YarnDistro.fetch envW dW collEmptyW []).2.1
      ["image", "yarn", "1.9.4"] = true := by
  have hfail := (atomic_promotion envW dFailW collEmptyW [] ["image", "yarn"]
    ["image", "yarn", "1.9.4"] (by decide) rfl rfl).1 "eof" rfl
  have hsucc := (atomic_promotion envW dW collEmptyW [] ["image", "yarn"]
    ["image", "yarn", "1.9.4"] (by decide) rfl rfl).2 rfl (by decide)
    (by decide) (by decide)
  exact ⟨hfail.2.1, hfail.2.2 (by decide) (by decide), hsucc.1, hsucc.2.1⟩

end Notion
